import Mathlib

/-!
# Verification of the deferred-computation (`Task`) library

Shallow embedding of the `Task<E, R>` class of `src/src/lib/task.ts` and of
its combinators, with proofs of the behavioural properties stated in the
specification.

A `Task` wraps an execution procedure
`(reject : E -> void, resolve : R -> void) -> void`; running it is the only
way to execute the represented effect.  We model the library at three levels
of observation, each translated from the source:

* `ApEvent`/`apStep`/`apRun`: a literal state machine for the closure-captured
  guard state of `Task.ap` (source lines 137-177) and `Task.apTo` (lines
  185-225).  The two method bodies contain the same guard logic (mutable
  locals `fn`, `funcResolved`, `v`, `valResolved`, `rejected`, plus the
  `guardReject` and `guardResolver` callbacks); they differ only in which
  side is `this` and in fork order, both of which are absorbed by
  quantifying over the schedule of channel-invocation events.
* `TTask`: a timed denotational model (settlement delay plus outcome) for the
  parallel array combinators, where completion order matters.
* `STask`: an instrumented model (log of forked base effects plus outcome)
  for the sequential combinators, where fork order matters.
-/

namespace DataTask

/-! ## The guard machine of `Task.ap` / `Task.apTo`

`E` is the error type, `R` the success type of the value side, `Y` the output
success type; the function side succeeds with an `R → Y`. -/

/-- A single channel invocation performed by one of the two input tasks of
`ap`/`apTo`: the value side (`this` in `ap`, the argument in `apTo`) or the
function side invokes its failure or success channel. -/
inductive ApEvent (E R Y : Type) where
  | valErr (e : E)
  | valOk (x : R)
  | fnErr (e : E)
  | fnOk (f : R → Y)

/-- The mutable guard state closed over by the execution procedure built in
`Task.ap`/`Task.apTo`.  In the source, `funcResolved` (resp. `valResolved`)
is set to `true` by the same setter call that assigns `fn` (resp. `v`), so
each flag/variable pair is modelled as one `Option`; the source condition
`funcResolved && valResolved` becomes both options being `some`. -/
structure ApState (E R Y : Type) where
  fn : Option (R → Y)
  v : Option R
  rejected : Bool

/-- Guard state before either side is forked: nothing resolved, not
rejected. -/
def ApState.init : ApState E R Y := ⟨none, none, false⟩

/-- One completion callback of `ap`/`apTo`, translated from `guardReject`
(failure events) and `guardResolver` (success events): a failure is forwarded
to the output `reject` unless `rejected` is already set, and sets `rejected`;
a success is dropped when `rejected` is set, otherwise it stores its payload
and, when both sides have resolved, invokes the output `resolve` with
`fn(v)`.  Returns the updated state and the output-channel invocations
performed. -/
def apStep (s : ApState E R Y) : ApEvent E R Y → ApState E R Y × List (Except E Y)
  | .valErr e =>
      if s.rejected then (s, []) else ({ s with rejected := true }, [.error e])
  | .fnErr e =>
      if s.rejected then (s, []) else ({ s with rejected := true }, [.error e])
  | .valOk x =>
      if s.rejected then (s, [])
      else
        match s.fn with
        | some f => ({ s with v := some x }, [.ok (f x)])
        | none => ({ s with v := some x }, [])
  | .fnOk f =>
      if s.rejected then (s, [])
      else
        match s.v with
        | some x => ({ s with fn := some f }, [.ok (f x)])
        | none => ({ s with fn := some f }, [])

/-- Output-channel invocations produced by processing a schedule of input
events from guard state `s`. -/
def apOut (s : ApState E R Y) : List (ApEvent E R Y) → List (Except E Y)
  | [] => []
  | ev :: evs => (apStep s ev).2 ++ apOut (apStep s ev).1 evs

/-- Guard state reached after processing a schedule of input events. -/
def apFold (s : ApState E R Y) (evs : List (ApEvent E R Y)) : ApState E R Y :=
  evs.foldl (fun s1 ev => (apStep s1 ev).1) s

/-- A complete run of the combined task built by `ap`/`apTo`: the guard state
is initialized before either side is forked, then the input events are
processed in settlement order. -/
def apRun (evs : List (ApEvent E R Y)) : List (Except E Y) :=
  apOut ApState.init evs

/-- The settlement of the value side as an event. -/
def valEvt : Except E R → ApEvent E R Y
  | .error e => .valErr e
  | .ok x => .valOk x

/-- The settlement of the function side as an event. -/
def fnEvt : Except E (R → Y) → ApEvent E R Y
  | .error e => .fnErr e
  | .ok f => .fnOk f

/-- The error carried by an event, when it is a failure-channel invocation. -/
def ApEvent.errPayload : ApEvent E R Y → Option E
  | .valErr e => some e
  | .fnErr e => some e
  | .valOk _ => none
  | .fnOk _ => none

/-- The payload of the first failure-channel invocation in a schedule: the
first-settled failure. -/
def firstErr (evs : List (ApEvent E R Y)) : Option E :=
  evs.findSome? ApEvent.errPayload

theorem apOut_append (s : ApState E R Y) (l1 l2 : List (ApEvent E R Y)) :
    apOut s (l1 ++ l2) = apOut s l1 ++ apOut (apFold s l1) l2 := by
  induction l1 generalizing s with
  | nil => simp [apOut, apFold]
  | cons ev evs ih =>
      simp [apOut, apFold, List.foldl_cons, ih, List.append_assoc]

theorem apStep_rejected (s : ApState E R Y) (hs : s.rejected = true)
    (ev : ApEvent E R Y) : apStep s ev = (s, []) := by
  cases ev <;> simp [apStep, hs]

theorem apOut_rejected (s : ApState E R Y) (hs : s.rejected = true)
    (evs : List (ApEvent E R Y)) : apOut s evs = [] := by
  induction evs with
  | nil => rfl
  | cons ev evs ih => simp [apOut, apStep_rejected s hs, ih]

/-- Claim C1.  When the two input tasks of `ap`/`apTo` each honour the two-channel
contract — each execution procedure invokes exactly one of its channels, at
most once, so each side contributes exactly one settlement event — the
combined task's output channel is invoked exactly once, whichever side
settles first; and whenever a failure is reported, the output is exactly the
first-settled failure, every later completion from the other side being
discarded by the guard.  The guard machine `apRun` is the shared body of
`Task.ap` and `Task.apTo`; the schedule ranges over both settlement
orders. -/
theorem ap_exactly_once_settlement {E R Y : Type}
    (av : Except E R) (af : Except E (R → Y)) (sched : List (ApEvent E R Y))
    (hsched : sched = [valEvt av, fnEvt af] ∨ sched = [fnEvt af, valEvt av]) :
    (apRun sched).length = 1 ∧
      ∀ e, firstErr sched = some e → apRun sched = [Except.error e] := by
  rcases hsched with rfl | rfl <;>
    rcases av with e1 | v <;> rcases af with e2 | f <;>
      simp [apRun, apOut, apStep, valEvt, fnEvt, firstErr, ApState.init,
        ApEvent.errPayload]

/-- Claim C1 witness: two inputs that both fail (errors `1` and `2`), value side
settling first — the combined task settles exactly once, with the
first-settled failure `1`. -/
theorem ap_exactly_once_settlement_witness :
    (apRun [ApEvent.valErr (R := Nat) (Y := Nat) 1, ApEvent.fnErr 2]).length = 1 ∧
      apRun [ApEvent.valErr (R := Nat) (Y := Nat) 1, ApEvent.fnErr 2] =
        [Except.error 1] := by
  have h := ap_exactly_once_settlement (Except.error 1)
    (Except.error 2 : Except Nat (Nat → Nat))
    [ApEvent.valErr 1, ApEvent.fnErr 2] (Or.inl rfl)
  exact ⟨h.1, h.2 1 rfl⟩

/-- Claim C2.  When both sides succeed — with values `v` and `f`, of arbitrary
types, so in particular null-like success payloads are included — the
combined task built by `ap`/`apTo` reports success with `f v`, in either
settlement order; and no output is produced before both sides have
completed. -/
theorem ap_success_combination {E R Y : Type}
    (v : R) (f : R → Y) (sched : List (ApEvent E R Y))
    (hsched : sched = [ApEvent.valOk v, ApEvent.fnOk f] ∨
      sched = [ApEvent.fnOk f, ApEvent.valOk v]) :
    apRun sched = [Except.ok (f v)] ∧
      apRun [ApEvent.valOk (E := E) (Y := Y) v] = [] ∧
      apRun [ApEvent.fnOk (E := E) (R := R) f] = [] := by
  rcases hsched with rfl | rfl <;>
    simp [apRun, apOut, apStep, ApState.init]

/-- Claim C2 witness, with a null-like success value: the value side succeeds with
`Option.none` and the function side with `Option.isSome`; the combination
succeeds with `false`, the function side settling first. -/
theorem ap_success_combination_witness :
    apRun [ApEvent.fnOk (E := Nat) Option.isSome,
      ApEvent.valOk (Option.none (α := Nat))] = [Except.ok false] := by
  exact (ap_success_combination (Option.none (α := Nat)) Option.isSome
    [ApEvent.fnOk Option.isSome, ApEvent.valOk Option.none] (Or.inr rfl)).1

/-- Claim C8 counterexample.  An input that violates the two-channel contract by
succeeding and then failing defeats the guard: after the combined task has
already resolved (output `Except.ok 1`), the late failure still reaches the
output channel (`Except.error 7`), so the later output-channel invocation is
not a no-op and the output channel fires twice. -/
theorem ap_guard_not_fully_defensive_cex :
    apRun [ApEvent.valOk (E := Nat) (Y := Nat) 1, ApEvent.fnOk (fun x => x),
        ApEvent.fnErr 7] = [Except.ok 1, Except.error 7] ∧
      (apRun [ApEvent.valOk (E := Nat) (Y := Nat) 1, ApEvent.fnOk (fun x => x),
        ApEvent.fnErr 7]).length = 2 := by
  constructor <;> rfl

/-- Claim C8 amended.  The guard of `ap`/`apTo` is one-shot on the failure side
only: once any failure event has been processed (`rejected` is set), every
later channel invocation from either side is a no-op, so at most one failure
ever reaches the output channel; but the guard does not protect the output
after a successful resolution — a contract-violating input that completes
again after the combined task has resolved can invoke the output channel a
second time. -/
theorem ap_guard_one_shot_failure {E R Y : Type}
    (pre post : List (ApEvent E R Y)) (e : E) :
    apRun (pre ++ ApEvent.valErr e :: post) = apRun (pre ++ [ApEvent.valErr e]) ∧
      apRun (pre ++ ApEvent.fnErr e :: post) = apRun (pre ++ [ApEvent.fnErr e]) := by
  constructor <;>
  · show apOut _ _ = apOut _ _
    rw [apOut_append, apOut_append]
    congr 1
    set s1 := apFold ApState.init pre with hs1
    have hrej : ((apStep s1 (ApEvent.valErr e)).1).rejected = true ∧
        ((apStep s1 (ApEvent.fnErr e)).1).rejected = true := by
      by_cases h : s1.rejected <;> simp [apStep, h]
    simp [apOut, apOut_rejected _ hrej.1, apOut_rejected _ hrej.2]

/-! ## The timed model

A well-behaved task is characterised by its settlement delay (the time
between the invocation of its execution procedure and its single channel
invocation) and by its outcome.  Each combinator below is the source
combinator's action on this data; `apTo` is the denotation of the guard
machine above on two single-settlement inputs ordered by settlement time,
with ties resolved by fork order (`this`, the function side, forks first in
`Task.apTo`) — see `apTo_matches_guard_machine` below. -/

/-- A well-behaved deferred computation: settles `d` time units after being
forked, invoking exactly one channel, as recorded by `out`. -/
structure TTask (E R : Type) where
  d : Nat
  out : Except E R

namespace TTask

/-- `Task.of` (source lines 47-49): immediately (synchronously) reports
success with the given value. -/
def of (r : R) : TTask E R := ⟨0, .ok r⟩

/-- `Task.rejected` (source lines 56-58): immediately reports failure. -/
def rejected (e : E) : TTask E R := ⟨0, .error e⟩

/-- `Task.map` (source lines 232-239): forks `this`; passes a failure
through, transforms a success with `f`.  Settles when `this` settles. -/
def map (t : TTask E R) (f : R → O) : TTask E O := ⟨t.d, t.out.map f⟩

/-- `Task.chain` (source lines 260-267): forks `this`; on failure passes the
error through; on success `r` forks `f r` — at `this`'s settlement time — and
forwards its outcome. -/
def chain (t : TTask E R) (f : R → TTask E O) : TTask E O :=
  match t.out with
  | .error e => ⟨t.d, .error e⟩
  | .ok r => ⟨t.d + (f r).d, (f r).out⟩

/-- `Task.bind` (source line 272), an alias of `chain`. -/
def bind (t : TTask E R) (f : R → TTask E O) : TTask E O := t.chain f

/-- `Task.apTo` (source lines 185-225): forks the function side (`this`)
first, then the value side, both before either settles; the guard resolves
with `fn v` once both sides have succeeded (at the later settlement), and
rejects with the first-settled failure, the function side winning ties
because it forked first. -/
def apTo (tf : TTask E (R → Y)) (tv : TTask E R) : TTask E Y :=
  match tf.out, tv.out with
  | .ok f, .ok v => ⟨max tf.d tv.d, .ok (f v)⟩
  | .error e, .ok _ => ⟨tf.d, .error e⟩
  | .ok _, .error e => ⟨tv.d, .error e⟩
  | .error e1, .error e2 =>
      if tf.d ≤ tv.d then ⟨tf.d, .error e1⟩ else ⟨tv.d, .error e2⟩

end TTask

/-- The schedule of settlement events seen by the guard machine when
`tf.apTo tv` runs: the two events ordered by settlement time, the function
side first on ties since it forked first. -/
def apToSchedule (tf : TTask E (R → Y)) (tv : TTask E R) :
    List (ApEvent E R Y) :=
  if tf.d ≤ tv.d then [fnEvt tf.out, valEvt tv.out]
  else [valEvt tv.out, fnEvt tf.out]

/-- `TTask.apTo` is exactly the guard machine of `Task.apTo` run on the
time-ordered schedule of the two sides' settlements: the machine performs a
single output-channel invocation, carrying `apTo`'s outcome. -/
theorem apTo_matches_guard_machine (tf : TTask E (R → Y)) (tv : TTask E R) :
    apRun (apToSchedule tf tv) = [(tf.apTo tv).out] := by
  rcases tf with ⟨df, of'⟩
  rcases tv with ⟨dv, ov⟩
  rcases of' with e1 | f <;> rcases ov with e2 | v <;>
    by_cases h : df ≤ dv <;>
      simp [apToSchedule, TTask.apTo, apRun, apOut, apStep, valEvt, fnEvt,
        ApState.init, h]

namespace TTask

/-- The per-item outcome container of the never-fail combinators (source
line 6): a tagged record, either `failed err` or `success data`. -/
inductive Result (E R : Type) where
  | failed (err : E)
  | success (data : R)
deriving DecidableEq

/-- The `Result` wrapping of a settled outcome. -/
def Result.ofOutcome : Except E R → Result E R
  | .error e => .failed e
  | .ok v => .success v

/-- `taskToTaskOfResult` (source lines 8-14): forks `t` and reports success
with the tagged outcome on whichever channel `t` settles; never invokes its
own failure channel, so its failure type is arbitrary (`never` in the
source). -/
def taskToTaskOfResult (t : TTask E R) : TTask F (Result E R) :=
  ⟨t.d, .ok (Result.ofOutcome t.out)⟩

/-- `Task.allSeq` (source lines 83-88): a fold of
`x.bind(t => acc.map(listOfT => [...listOfT, t]))` over the array. -/
def allSeq (arr : List (TTask E R)) : TTask E (List R) :=
  arr.foldl
    (fun acc x => x.bind (fun t => acc.map (fun listOfT => listOfT ++ [t])))
    (of [])

/-- `Task.all` (source lines 95-100): a fold of
`acc.chain(list => Task.of(el => [...list, el])).apTo(tv)` over the array:
every item is forked concurrently with the accumulated combination. -/
def all (arr : List (TTask E R)) : TTask E (List R) :=
  arr.foldl
    (fun acc tv => (acc.chain (fun list => of (fun el => list ++ [el]))).apTo tv)
    (of [])

/-- `Task.allSeattleSeq` (source lines 107-114): every item is wrapped by
`taskToTaskOfResult`, then folded exactly as `allSeq`. -/
def allSeattleSeq (arr : List (TTask E R)) : TTask F (List (Result E R)) :=
  (arr.map taskToTaskOfResult).foldl
    (fun acc x => x.bind (fun t => acc.map (fun l => l ++ [t])))
    (of [])

/-- `Task.allSeattle` (source lines 121-129): every item is wrapped by
`taskToTaskOfResult`, then folded exactly as `all`. -/
def allSeattle (arr : List (TTask E R)) : TTask F (List (Result E R)) :=
  (arr.map taskToTaskOfResult).foldl
    (fun acc tv => (acc.chain (fun list => of (fun el => list ++ [el]))).apTo tv)
    (of [])

/-- `Task.arrayTraverseA` (source of the extended revision, lines 475-481):
folds `Task.of(cons).apTo(f(i)).apTo(tl)` with
`cons = x => xs => xs.concat([x])`. -/
def arrayTraverseA (f : α → TTask E β) (arr : List α) : TTask E (List β) :=
  arr.foldl
    (fun tl i => ((of (fun (x : β) (xs : List β) => xs ++ [x])).apTo (f i)).apTo tl)
    (of [])

/-- `Task.arrayTraverseM` (source of the extended revision, lines 489-494):
folds `tl.chain(xs => f(i).chain(x => Task.of(xs.concat(x))))`. -/
def arrayTraverseM (f : α → TTask E β) (arr : List α) : TTask E (List β) :=
  arr.foldl
    (fun tl i => tl.chain (fun xs => (f i).chain (fun x => of (xs ++ [x]))))
    (of [])

theorem all_foldl_ok {E R : Type} (arr : List (TTask E R)) (vals : List R)
    (h : arr.map TTask.out = vals.map Except.ok) :
    ∀ (d0 : Nat) (l0 : List R),
      ∃ dd,
        arr.foldl
          (fun (acc : TTask E (List R)) (tv : TTask E R) =>
            (acc.chain (fun list => of (fun el => list ++ [el]))).apTo tv)
          ⟨d0, .ok l0⟩ = ⟨dd, .ok (l0 ++ vals)⟩ := by
  induction arr generalizing vals with
  | nil =>
      rcases vals with _ | ⟨v, vs⟩
      · intro d0 l0; exact ⟨d0, by simp⟩
      · simp at h
  | cons a arr ih =>
      rcases vals with _ | ⟨v, vs⟩
      · simp at h
      · simp only [List.map_cons, List.cons.injEq] at h
        intro d0 l0
        rcases a with ⟨da, oa⟩
        obtain ⟨ha, harr⟩ := h
        simp only at ha
        subst ha
        obtain ⟨dd, hdd⟩ := ih vs harr (max (d0 + 0) da) (l0 ++ [v])
        refine ⟨dd, ?_⟩
        rw [List.foldl_cons]
        exact hdd.trans (by simp)

theorem seattle_foldl_ok {E R F : Type} (arr : List (TTask E R)) :
    ∀ (d0 : Nat) (l0 : List (Result E R)),
      ∃ dd,
        (arr.map taskToTaskOfResult).foldl
          (fun (acc : TTask F (List (Result E R))) (tv : TTask F (Result E R)) =>
            (acc.chain (fun list => of (fun el => list ++ [el]))).apTo tv)
          ⟨d0, .ok l0⟩ =
          ⟨dd, .ok (l0 ++ arr.map (fun t => Result.ofOutcome t.out))⟩ := by
  induction arr with
  | nil => intro d0 l0; exact ⟨d0, by simp⟩
  | cons a arr ih =>
      intro d0 l0
      obtain ⟨dd, hdd⟩ := ih (max (d0 + 0) a.d) (l0 ++ [Result.ofOutcome a.out])
      refine ⟨dd, ?_⟩
      rw [List.map_cons, List.foldl_cons]
      exact hdd.trans (by simp)

theorem seattleSeq_foldl_ok {E R F : Type} (arr : List (TTask E R)) :
    ∀ (d0 : Nat) (l0 : List (Result E R)),
      ∃ dd,
        (arr.map taskToTaskOfResult).foldl
          (fun (acc : TTask F (List (Result E R))) (x : TTask F (Result E R)) =>
            x.bind (fun t => acc.map (fun l => l ++ [t])))
          ⟨d0, .ok l0⟩ =
          ⟨dd, .ok (l0 ++ arr.map (fun t => Result.ofOutcome t.out))⟩ := by
  induction arr with
  | nil => intro d0 l0; exact ⟨d0, by simp⟩
  | cons a arr ih =>
      intro d0 l0
      obtain ⟨dd, hdd⟩ := ih (a.d + d0) (l0 ++ [Result.ofOutcome a.out])
      refine ⟨dd, ?_⟩
      rw [List.map_cons, List.foldl_cons]
      exact hdd.trans (by simp)

end TTask

/-- Claim C5.  When every task of the array succeeds, the parallel combinator
`Task.all` succeeds with the per-item success values in original index
order, whatever the items' settlement delays — that is, regardless of the
order in which the items settle. -/
theorem all_success_index_order {E R : Type}
    (arr : List (TTask E R)) (vals : List R)
    (h : arr.map TTask.out = vals.map Except.ok) :
    (TTask.all arr).out = Except.ok vals := by
  obtain ⟨dd, hdd⟩ := TTask.all_foldl_ok arr vals h 0 []
  exact (congrArg TTask.out hdd).trans (by simp)

/-- Claim C5 witness: `all` over three succeeding tasks with values `1, 2, 3` and
delays `5, 3, 0` — the third item settles before the first — succeeds with
`[1, 2, 3]` in original index order. -/
theorem all_success_index_order_witness :
    (TTask.all [(⟨5, .ok 1⟩ : TTask Nat Nat), ⟨3, .ok 2⟩, ⟨0, .ok 3⟩]).out =
      Except.ok [1, 2, 3] :=
  all_success_index_order
    [(⟨5, .ok 1⟩ : TTask Nat Nat), ⟨3, .ok 2⟩, ⟨0, .ok 3⟩] [1, 2, 3] rfl

/-- Claim C6.  `Task.allSeattle` and `Task.allSeattleSeq` never invoke the failure
channel: for every array they succeed with exactly one tagged outcome per
input item, in original index order independent of completion order — each
entry `failed err` or `success data` according to that item's settlement.
In particular `allSeattle [of 1, rejected 42]` succeeds with
`[success 1, failed 42]`. -/
theorem allSeattle_never_fails {E R F : Type} (arr : List (TTask E R)) :
    (TTask.allSeattle (F := F) arr).out =
        Except.ok (arr.map (fun t => TTask.Result.ofOutcome t.out)) ∧
      (TTask.allSeattleSeq (F := F) arr).out =
        Except.ok (arr.map (fun t => TTask.Result.ofOutcome t.out)) ∧
      (TTask.allSeattle (E := Nat) (R := Nat) (F := Nat)
          [TTask.of 1, TTask.rejected 42]).out =
        Except.ok [TTask.Result.success 1, TTask.Result.failed 42] := by
  refine ⟨?_, ?_, rfl⟩
  · obtain ⟨dd, hdd⟩ := TTask.seattle_foldl_ok (F := F) arr 0 []
    exact (congrArg TTask.out hdd).trans (by simp)
  · obtain ⟨dd, hdd⟩ := TTask.seattleSeq_foldl_ok (F := F) arr 0 []
    exact (congrArg TTask.out hdd).trans (by simp)

/-- Claim C10.  On the empty array, each of the six array combinators reduces to
the fold's initial accumulator `Task.of([])`: a task of delay `0` — it
settles synchronously — reporting success with the empty list and never
invoking the failure channel. -/
theorem empty_array_combinators :
    TTask.allSeq ([] : List (TTask Nat Nat)) = ⟨0, .ok []⟩ ∧
      TTask.all ([] : List (TTask Nat Nat)) = ⟨0, .ok []⟩ ∧
      TTask.allSeattleSeq (F := Nat) ([] : List (TTask Nat Nat)) = ⟨0, .ok []⟩ ∧
      TTask.allSeattle (F := Nat) ([] : List (TTask Nat Nat)) = ⟨0, .ok []⟩ ∧
      TTask.arrayTraverseA (E := Nat) (fun n : Nat => TTask.of n) [] = ⟨0, .ok []⟩ ∧
      TTask.arrayTraverseM (E := Nat) (fun n : Nat => TTask.of n) [] = ⟨0, .ok []⟩ :=
  ⟨rfl, rfl, rfl, rfl, rfl, rfl⟩

/-! ## The instrumented model

For the sequential combinators what matters is which base effects are forked
and in which order.  An `STask` settles synchronously when forked; its `log`
records the side effects its execution procedure performs (for a base task
carrying the item's index, the fork of that item), in execution order, and
`res` records the channel it invokes. -/

/-- A deferred computation that settles during its fork call, recording in
`log` the instrumented effects it performs. -/
structure STask (L E R : Type) where
  log : List L
  res : Except E R

namespace STask

/-- `Task.of` (source lines 47-49): no effect, immediate success. -/
def of (r : R) : STask L E R := ⟨[], .ok r⟩

/-- `Task.rejected` (source lines 56-58): no effect, immediate failure. -/
def rejected (e : E) : STask L E R := ⟨[], .error e⟩

/-- `Task.map` (source lines 232-239): forks `this`, transforms a success,
passes a failure through. -/
def map (t : STask L E R) (f : R → O) : STask L E O := ⟨t.log, t.res.map f⟩

/-- `Task.rejectMap` (source lines 246-253): forks `this`, transforms a
failure, passes a success through. -/
def rejectMap (t : STask L E R) (g : E → F) : STask L F R :=
  ⟨t.log, match t.res with
    | .error e => .error (g e)
    | .ok r => .ok r⟩

/-- `Task.chain` (source lines 260-267): forks `this`; on failure it passes
the error through and the continuation never runs — its effects are absent
from the log; on success it forks `f r` and forwards that outcome. -/
def chain (t : STask L E R) (f : R → STask L E O) : STask L E O :=
  match t.res with
  | .error e => ⟨t.log, .error e⟩
  | .ok r => ⟨t.log ++ (f r).log, (f r).res⟩

/-- `Task.bind` (source line 272), an alias of `chain`. -/
def bind (t : STask L E R) (f : R → STask L E O) : STask L E O := t.chain f

/-- `Task.allSeq` (source lines 83-88): a fold of
`x.bind(t => acc.map(listOfT => [...listOfT, t]))` over the array — note
the fold step forks the current item `x` first and the accumulated prefix
combination only inside `x`'s success continuation. -/
def allSeq (arr : List (STask L E R)) : STask L E (List R) :=
  arr.foldl
    (fun acc x => x.bind (fun t => acc.map (fun listOfT => listOfT ++ [t])))
    (of [])

/-- `Task.arrayTraverseM` (source of the extended revision, lines 489-494):
folds `tl.chain(xs => f(i).chain(x => Task.of(xs.concat(x))))` — the mapped
task of item `i` is constructed and forked inside the success continuation
of the accumulated prefix. -/
def arrayTraverseM (f : α → STask L E β) (arr : List α) : STask L E (List β) :=
  arr.foldl
    (fun tl i => tl.chain (fun xs => (f i).chain (fun x => of (xs ++ [x]))))
    (of [])

/-- `Task.tap` (source of the extended revision, lines 557-564): `f` either
returns a `Task` (`some r`) — whose value is discarded in favour of the
original input — or returns void (`none`). -/
def tap (f : S → Option (STask L F Unit)) : S → STask L F S := fun input =>
  match f input with
  | some r => r.map (fun _ => input)
  | none => of input

/-- `Task.rejectTap` (source of the extended revision, lines 572-579): `f`
either returns a `Task` (`some r`) — whose failure, if any, is replaced by
the original failure via `rejectMap` — or returns void (`none`), in which
case the original failure is re-reported. -/
def rejectTap (f : E → Option (STask L F S)) : E → STask L E S := fun failure =>
  match f failure with
  | some r => r.rejectMap (fun _ => failure)
  | none => rejected failure

/-- The behaviour `allSeq` actually has, stated on the reversed array: the
head of the reversed array (the last item) forks first; a failure stops the
run, so earlier-indexed items never fork; a success forks the rest and
appends its value after the values of the lower-indexed items. -/
def allSeqSpecRev : List (STask L E R) → STask L E (List R)
  | [] => ⟨[], .ok []⟩
  | x :: rest =>
    match x.res with
    | .error e => ⟨x.log, .error e⟩
    | .ok v =>
        ⟨x.log ++ (allSeqSpecRev rest).log,
          (allSeqSpecRev rest).res.map (fun l => l ++ [v])⟩

theorem allSeq_reverse_spec_aux (l : List (STask L E R)) :
    allSeq l.reverse = allSeqSpecRev l := by
  induction l with
  | nil => rfl
  | cons x l ih =>
      have h1 : allSeq ((x :: l).reverse) =
          x.bind (fun t => (allSeq l.reverse).map (fun lt => lt ++ [t])) := by
        simp [allSeq, List.reverse_cons, List.foldl_append]
      rw [h1, ih]
      rcases x with ⟨xl, xres⟩
      rcases xres with e | v <;> simp [allSeqSpecRev, bind, chain, map]

/-- The sequential forward run of a monadic traversal: item `a` is forked;
on failure the run stops with that exact error and no later item is reached;
on success the rest runs and `a`'s value is prepended. -/
def seqRunM (f : α → STask L E β) : List α → STask L E (List β)
  | [] => ⟨[], .ok []⟩
  | a :: rest =>
    match (f a).res with
    | .error e => ⟨(f a).log, .error e⟩
    | .ok v =>
        ⟨(f a).log ++ (seqRunM f rest).log,
          (seqRunM f rest).res.map (fun r => v :: r)⟩

theorem travM_foldl_error (f : α → STask L E β) (e : E) (l0 : List L)
    (arr : List α) :
    arr.foldl
      (fun (tl : STask L E (List β)) i =>
        tl.chain (fun xs => (f i).chain (fun x => of (xs ++ [x]))))
      ⟨l0, .error e⟩ = ⟨l0, .error e⟩ := by
  induction arr with
  | nil => rfl
  | cons a arr ih =>
      rw [List.foldl_cons]
      exact ih

theorem travM_foldl_ok (f : α → STask L E β) (arr : List α) :
    ∀ (l0 : List L) (xs0 : List β),
      arr.foldl
        (fun (tl : STask L E (List β)) i =>
          tl.chain (fun xs => (f i).chain (fun x => of (xs ++ [x]))))
        ⟨l0, .ok xs0⟩ =
        ⟨l0 ++ (seqRunM f arr).log,
          (seqRunM f arr).res.map (fun r => xs0 ++ r)⟩ := by
  induction arr with
  | nil =>
      intro l0 xs0
      simp [seqRunM, Except.map]
  | cons a arr ih =>
      intro l0 xs0
      rw [List.foldl_cons]
      cases hfa : (f a).res with
      | error e =>
          have hstep : chain (⟨l0, .ok xs0⟩ : STask L E (List β))
              (fun xs => (f a).chain (fun x => of (xs ++ [x]))) =
              ⟨l0 ++ (f a).log, .error e⟩ := by
            simp [chain, hfa]
          rw [hstep, travM_foldl_error]
          simp [seqRunM, hfa, Except.map]
      | ok v =>
          have hstep : chain (⟨l0, .ok xs0⟩ : STask L E (List β))
              (fun xs => (f a).chain (fun x => of (xs ++ [x]))) =
              ⟨l0 ++ ((f a).log ++ []), .ok (xs0 ++ [v])⟩ := by
            simp [chain, hfa, of]
          rw [hstep, ih]
          rcases hrest : (seqRunM f arr).res with e2 | r <;>
            simp [seqRunM, hfa, hrest, Except.map, List.append_assoc]

end STask

/-- Claim C3 counterexample.  `allSeq` over two instrumented tasks (task `i` logs
`i` when its execution procedure is invoked): with both items succeeding,
the log is `[1, 0]` — item `1`'s execution procedure is invoked before item
`0` settles, refuting index-order sequencing (the values are nevertheless
delivered in index order); and with item `0` failing, the log is again
`[1, 0]` — the later item `1` did run before the failing item `0` yielded
the aggregate failure, refuting "without running later items". -/
theorem allSeq_not_index_order_cex :
    (STask.allSeq [(⟨[0], .ok 10⟩ : STask Nat Nat Nat), ⟨[1], .ok 20⟩]).log =
        [1, 0] ∧
      (STask.allSeq [(⟨[0], .ok 10⟩ : STask Nat Nat Nat), ⟨[1], .ok 20⟩]).res =
        .ok [10, 20] ∧
      (STask.allSeq [(⟨[0], .error 7⟩ : STask Nat Nat Nat), ⟨[1], .ok 20⟩]).log =
        [1, 0] ∧
      (STask.allSeq [(⟨[0], .error 7⟩ : STask Nat Nat Nat), ⟨[1], .ok 20⟩]).res =
        .error 7 :=
  ⟨rfl, rfl, rfl, rfl⟩

/-- Claim C3 amended.  `allSeq` runs the items one at a time in *reverse* index
order: the last item's execution procedure is invoked first, and item `i`
is invoked only after item `i + 1` settled successfully; a failing item
immediately yields the aggregate failure without running the
*earlier*-indexed items (later-indexed items have already run); on
all-success the per-item values are nevertheless delivered in original
index order. -/
theorem allSeq_runs_in_reverse_order {L E R : Type} (arr : List (STask L E R)) :
    STask.allSeq arr = STask.allSeqSpecRev arr.reverse := by
  have h := STask.allSeq_reverse_spec_aux (L := L) (E := E) (R := R) arr.reverse
  rwa [List.reverse_reverse] at h

/-- Claim C4.  `arrayTraverseM` is strictly sequential and fail-fast: it is the
forward sequential run `seqRunM`, which forks item `i + 1`'s mapped task
only inside item `i`'s success continuation, stops at the first item whose
mapped task fails, and reports that item's exact error.  In particular, over
`[1, 2, 3, 4, 5]` with the spec's mapping (instrumented so the mapped task
of `n` logs `n` when invoked), the traversal fails with `"fail"`, and the
log `[1]` shows the mapping's task was only invoked for item `1` — never for
`3`, `4`, `5`. -/
theorem arrayTraverseM_sequential_fail_fast :
    (∀ (L E α β : Type) (f : α → STask L E β) (arr : List α),
        STask.arrayTraverseM f arr = STask.seqRunM f arr) ∧
      STask.arrayTraverseM
          (fun n : Nat =>
            if n > 2 then (⟨[n], .ok n⟩ : STask Nat String Nat)
            else ⟨[n], .error "fail"⟩)
          [1, 2, 3, 4, 5] =
        ⟨[1], .error "fail"⟩ := by
  constructor
  · intro L E α β f arr
    have h := STask.travM_foldl_ok f arr [] []
    refine h.trans ?_
    rcases hres : (STask.seqRunM f arr).res with e | r <;>
      simp [hres, Except.map] <;>
      exact (STask.mk.injEq _ _ _ _).mpr ⟨rfl, hres.symm⟩
  · rfl

/-- Claim C9 counterexample.  When `f` returns a *succeeding* task,
`rejectTap(f)(e)` does not re-report the original failure: with
`f = fun _ => some (Task.of 5)` and `e = 9`, the resulting task succeeds
with `5` instead of failing with `9` — `rejectMap` only touches the failure
path, so a success of `f`'s task passes through. -/
theorem rejectTap_success_passthrough_cex :
    (STask.rejectTap (fun _ : Nat => some (STask.of (L := Nat) (E := Nat) 5)) 9).res =
        .ok 5 ∧
      (STask.rejectTap (fun _ : Nat => some (STask.of (L := Nat) (E := Nat) 5)) 9).res ≠
        .error 9 :=
  ⟨rfl, by simp [STask.rejectTap, STask.rejectMap, STask.of]⟩

/-- Claim C9 amended.  `rejectTap(f)(e)` re-reports the original failure `e`
unchanged when `f` returns void and when `f` returns a *failing* task (whose
error payload is replaced by `e`); but when `f` returns a *succeeding* task,
the success passes through and the result succeeds with that task's value —
the failure is recovered, not re-reported.  In every task case `f`'s task is
forked (its effects run). -/
theorem rejectTap_characterization {L E F S : Type}
    (f : E → Option (STask L F S)) (e : E) :
    STask.rejectTap f e =
      match f e with
      | none => STask.rejected e
      | some r =>
          ⟨r.log, match r.res with
            | .error _ => .error e
            | .ok s => .ok s⟩ := by
  cases hf : f e with
  | none => simp [STask.rejectTap, hf]
  | some r =>
      cases hr : r.res <;>
        simp [STask.rejectTap, STask.rejectMap, hf, hr]

/-- Claim C7.  `chain` and the pure constructor `of` satisfy the monad laws, in
both models — behavioural equivalence is equality of the full observation
(performed effects and outcome in `STask`, settlement delay and outcome in
`TTask`): left identity `of(x).chain(f) = f(x)`, right identity
`m.chain(of) = m`, and associativity
`m.chain(f).chain(g) = m.chain(x => f(x).chain(g))`. -/
theorem chain_monad_laws :
    (∀ (L E R O : Type) (x : R) (f : R → STask L E O),
        (STask.of x).chain f = f x) ∧
      (∀ (L E R : Type) (m : STask L E R), m.chain STask.of = m) ∧
      (∀ (L E R O P : Type) (m : STask L E R) (f : R → STask L E O)
          (g : O → STask L E P),
        (m.chain f).chain g = m.chain (fun x => (f x).chain g)) ∧
      (∀ (E R O : Type) (x : R) (f : R → TTask E O),
        (TTask.of x).chain f = f x) ∧
      (∀ (E R : Type) (m : TTask E R), m.chain TTask.of = m) ∧
      (∀ (E R O P : Type) (m : TTask E R) (f : R → TTask E O)
          (g : O → TTask E P),
        (m.chain f).chain g = m.chain (fun x => (f x).chain g)) := by
  refine ⟨?_, ?_, ?_, ?_, ?_, ?_⟩
  · intro L E R O x f
    rfl
  · intro L E R m
    rcases m with ⟨lg, rs⟩
    rcases rs with e | r
    · rfl
    · simp [STask.chain, STask.of]
  · intro L E R O P m f g
    rcases m with ⟨lg, rs⟩
    rcases rs with e | r
    · rfl
    · rcases hfr : f r with ⟨l2, r2⟩
      rcases r2 with e2 | o <;>
        simp [STask.chain, hfr, List.append_assoc]
  · intro E R O x f
    rcases hfx : f x with ⟨d2, o2⟩
    simp [TTask.chain, TTask.of, hfx]
  · intro E R m
    rcases m with ⟨d, rs⟩
    rcases rs with e | r
    · rfl
    · simp [TTask.chain, TTask.of]
  · intro E R O P m f g
    rcases m with ⟨d, rs⟩
    rcases rs with e | r
    · rfl
    · rcases hfr : f r with ⟨d2, r2⟩
      rcases r2 with e2 | o <;>
        simp [TTask.chain, hfr, Nat.add_assoc]

end DataTask
